import Mathlib

/-!
# Verification of the ssync manifest engine

A shallow embedding, in Lean 4, of the manifest data model, codec,
reconciliation ("update") and comparison ("compare") logic of the `ssync`
repository, together with proofs of the testable properties stated in its
specification.

The repository contains two generations of the tool:

* the `internal/core` package (files `internal/core/create.go` and the
  unnamed parts 008/009): 5-field records (`Path, ModifiedTime, Size, Hash,
  NtfsFileId`) serialized with Go's `encoding/csv`; embedded below in
  namespace `Ssync.Core`;
* the flat `package main` generation (unnamed parts 001/004, `update.go`,
  `verify.go`): 4-field records written with a hand-rolled `toCSVField`
  and read back with a plain `strings.SplitN`; embedded below in namespace
  `Ssync.Main`.

Modelling conventions:

* Go `time.Time` values are embedded as `Int` (Unix seconds).  Every use of
  a modification time in the sources goes through `.Unix()` — comparisons
  (`modifiedTime.Unix() == old.ModifiedTime.Unix()`) and serialization
  (`strconv.FormatInt(fi.ModifiedTime.Unix(), 10)`) alike — so whole
  seconds is exactly the observable content of the field.
* `int64` fields become `Int` and `uint64` fields become `Nat`; the
  fixed-width ranges reappear as explicit bounds in the `ParseInt` /
  `ParseUint` models and in the well-formedness predicates.
* File contents are abstracted by the hex digest string `calculateMD5`
  would return for them (`md5` field of a scan entry); "reads the file's
  content" is modelled by the Boolean "`calculateMD5` was invoked" marker
  that `updateStep` returns.
* Go's `encoding/csv` reader documents that it "converts all \r\n
  sequences in its input to plain \n"; this appears as the `normCRLF`
  preprocessing pass.  Its writer quotes a field that contains the comma,
  a quote, `\r`, `\n`, equals `\.`, or starts with white space
  (`fieldNeedsQuotes`), doubling interior quotes.
-/

namespace Ssync

/-- Field/record terminator kinds seen by the CSV reader. -/
inductive Term where
  | comma
  | newline
  | eof
deriving DecidableEq, Repr

/-! ## Decimal integers: models of `strconv.FormatInt/FormatUint` and
`strconv.ParseInt/ParseUint` (base 10, bit size 64). -/

/-- The decimal digit characters. -/
def digitChar (d : Nat) : Char :=
  match d with
  | 0 => '0' | 1 => '1' | 2 => '2' | 3 => '3' | 4 => '4'
  | 5 => '5' | 6 => '6' | 7 => '7' | 8 => '8' | _ => '9'

/-- Numeric value of a decimal digit character, `none` on a non-digit. -/
def digit? (c : Char) : Option Nat :=
  if c = '0' then some 0 else if c = '1' then some 1
  else if c = '2' then some 2 else if c = '3' then some 3
  else if c = '4' then some 4 else if c = '5' then some 5
  else if c = '6' then some 6 else if c = '7' then some 7
  else if c = '8' then some 8 else if c = '9' then some 9
  else none

/-- Accumulating decimal parse over a digit list. -/
def parseDigitsAux (acc : Nat) : List Char → Option Nat
  | [] => some acc
  | c :: r =>
    match digit? c with
    | some d => parseDigitsAux (10 * acc + d) r
    | none => none

/-- Parse a non-empty all-digit string to a `Nat`. -/
def parseDigits : List Char → Option Nat
  | [] => none
  | c :: r => parseDigitsAux 0 (c :: r)

/-- Decimal rendering of a natural number, fuel-based so that it reduces in
the kernel; `fuel > n` always suffices. -/
def natToDecAux : Nat → Nat → List Char
  | 0, _ => []
  | fuel + 1, n =>
    if n < 10 then [digitChar n]
    else natToDecAux fuel (n / 10) ++ [digitChar (n % 10)]

/-- Decimal rendering of a natural number (`strconv.FormatUint`). -/
def natToDec (n : Nat) : List Char := natToDecAux (n + 1) n

/-- Decimal rendering of an integer (`strconv.FormatInt`). -/
def intToDec (i : Int) : List Char :=
  if i < 0 then '-' :: natToDec (-i).toNat else natToDec i.toNat

/-- Model of `strconv.ParseUint(s, 10, 64)`: digits only (no sign), value
must fit in a `uint64`. -/
def goParseUint (s : String) : Option Nat :=
  match parseDigits s.data with
  | some n => if n < 2 ^ 64 then some n else none
  | none => none

/-- Model of `strconv.ParseInt(s, 10, 64)`: optional sign, decimal digits,
value must fit in an `int64`. -/
def goParseInt (s : String) : Option Int :=
  match s.data with
  | [] => none
  | c :: r =>
    if c = '-' then
      match parseDigits r with
      | some n => if n ≤ 2 ^ 63 then some (-(n : Int)) else none
      | none => none
    else if c = '+' then
      match parseDigits r with
      | some n => if n < 2 ^ 63 then some (n : Int) else none
      | none => none
    else
      match parseDigits (c :: r) with
      | some n => if n < 2 ^ 63 then some (n : Int) else none
      | none => none

/-- Go string comparison `a < b` on the character sequences (byte-wise in
Go; UTF-8 byte order coincides with code-point order, so character-wise
lexicographic order is the same relation). -/
def lexLt : List Char → List Char → Bool
  | [], [] => false
  | [], _ :: _ => true
  | _ :: _, [] => false
  | a :: as, b :: bs =>
    if a < b then true else if b < a then false else lexLt as bs

/-! ## The `encoding/csv` writer model. -/

/-- White-space test of the first rune (`unicode.IsSpace`, the Unicode
White_Space property). -/
def isGoSpace (c : Char) : Bool :=
  c = ' ' ∨ c = '\t' ∨ c = '\n' ∨ c = Char.ofNat 0x0B ∨ c = Char.ofNat 0x0C ∨
  c = '\r' ∨ c = Char.ofNat 0x85 ∨ c = Char.ofNat 0xA0 ∨
  c = Char.ofNat 0x1680 ∨ (Char.ofNat 0x2000 ≤ c ∧ c ≤ Char.ofNat 0x200A) ∨
  c = Char.ofNat 0x2028 ∨ c = Char.ofNat 0x2029 ∨ c = Char.ofNat 0x202F ∨
  c = Char.ofNat 0x205F ∨ c = Char.ofNat 0x3000

/-- Model of `csv.Writer.fieldNeedsQuotes`: quote an empty-safe field when it
is `\.`, contains the comma, a quote, `\r` or `\n`, or starts with a space. -/
def needsQuotes : List Char → Bool
  | [] => false
  | c :: r =>
    if c :: r = ['\\', '.'] then true
    else (c :: r).contains ',' || (c :: r).contains '"' ||
      (c :: r).contains '\r' || (c :: r).contains '\n' || isGoSpace c

/-- Double every interior quote of a field. -/
def escapeQ : List Char → List Char
  | [] => []
  | c :: r => if c = '"' then '"' :: '"' :: escapeQ r else c :: escapeQ r

/-- Encode one CSV field, quoting only when `fieldNeedsQuotes` says so. -/
def encodeField (f : List Char) : List Char :=
  if needsQuotes f then '"' :: (escapeQ f ++ ['"']) else f

/-- Join encoded fields with commas (a row body, without the newline). -/
def joinComma : List (List Char) → List Char
  | [] => []
  | [f] => encodeField f
  | f :: g :: r => encodeField f ++ ',' :: joinComma (g :: r)

/-- Encode one CSV row (fields joined by commas, `\n`-terminated;
`csv.Writer` with `UseCRLF = false`). -/
def encodeRow (fs : List String) : List Char :=
  joinComma (fs.map String.data) ++ ['\n']

/-- Encode a sequence of CSV rows. -/
def encodeRows (rows : List (List String)) : List Char :=
  (rows.map encodeRow).flatten

/-! ## The `encoding/csv` reader model (default `Comma = ','`,
`LazyQuotes = false`, `TrimLeadingSpace = false`). -/

/-- The reader's documented global `\r\n` → `\n` normalization. -/
def normCRLF : List Char → List Char
  | [] => []
  | [c] => [c]
  | c :: c2 :: r =>
    if c = '\r' ∧ c2 = '\n' then '\n' :: normCRLF r
    else c :: normCRLF (c2 :: r)

/-- Scan an unquoted field up to a comma, newline or end of input. -/
def takeUntilSep : List Char → List Char × Term × List Char
  | [] => ([], Term.eof, [])
  | c :: r =>
    if c = ',' then ([], Term.comma, r)
    else if c = '\n' then ([], Term.newline, r)
    else
      match takeUntilSep r with
      | (f, t, rest) => (c :: f, t, rest)

/-- Parse the body of a quoted field (input starts after the opening quote).
`""` is a literal quote; a closing quote must be followed by a comma, a
newline or the end of input (`ErrQuote` otherwise, `none` here); an
unterminated quote is an error. -/
def parseQuotedBody : List Char → Option (List Char × Term × List Char)
  | [] => none
  | c :: r =>
    if c = '"' then
      match r with
      | [] => some ([], Term.eof, [])
      | c2 :: r2 =>
        if c2 = ',' then some ([], Term.comma, r2)
        else if c2 = '\n' then some ([], Term.newline, r2)
        else if c2 = '"' then
          (parseQuotedBody r2).map (fun x => ('"' :: x.1, x.2.1, x.2.2))
        else none
    else (parseQuotedBody r).map (fun x => (c :: x.1, x.2.1, x.2.2))

/-- Parse one CSV field together with its terminator.  A field starting with
a quote is parsed quoted; otherwise a bare quote inside the field is an
error (`ErrBareQuote`). -/
def parseField (cs : List Char) : Option (List Char × Term × List Char) :=
  match cs with
  | [] => some ([], Term.eof, [])
  | c :: r =>
    if c = '"' then parseQuotedBody r
    else
      match takeUntilSep (c :: r) with
      | (f, t, rest) => if f.contains '"' then none else some (f, t, rest)

/-- Parse the comma-separated fields of one record; the fuel bounds the
field count (`input length + 1` always suffices). -/
def parseRecordAux : Nat → List Char → Option (List String × List Char)
  | 0, _ => none
  | fuel + 1, cs =>
    match parseField cs with
    | none => none
    | some (f, Term.comma, rest) =>
      (parseRecordAux fuel rest).map (fun x => (String.mk f :: x.1, x.2))
    | some (f, Term.newline, rest) => some ([String.mk f], rest)
    | some (f, Term.eof, rest) => some ([String.mk f], rest)

/-- Parse a whole CSV input into records, skipping blank lines; the fuel
bounds the record count (`input length + 1` always suffices). -/
def parseRecordsAux : Nat → List Char → Option (List (List String))
  | 0, _ => none
  | _ + 1, [] => some []
  | fuel + 1, c :: r =>
    if c = '\n' then parseRecordsAux fuel r
    else
      match parseRecordAux ((c :: r).length + 1) (c :: r) with
      | none => none
      | some (rec, rest) =>
        (parseRecordsAux fuel rest).map (fun rs => rec :: rs)

/-- Parse a CSV document (after `\r\n` normalization). -/
def parseRecords (cs : List Char) : Option (List (List String)) :=
  parseRecordsAux (cs.length + 1) cs

namespace Core

/-- `FileInfo` of `internal/core` (unnamed part 009): one manifest row.
`ModifiedTime` is the Unix-seconds view of the Go `time.Time` (see the
module comment), `Size` an `int64`, `NTFSFileID` a `uint64`. -/
structure FileInfo where
  Path : String
  ModifiedTime : Int
  Size : Int
  Hash : String
  NTFSFileID : Nat
deriving DecidableEq, Repr

/-- Well-formedness of a record as Go can actually hold it: the numeric
fields fit their fixed-width types, and the string fields are free of the
carriage-return character (true of every Windows path and of every hex
digest; `encoding/csv` readers normalize `\r\n` to `\n`, so a manifest read
from disk also satisfies it). -/
def FileInfo.WF (r : FileInfo) : Prop :=
  -(2 ^ 63) ≤ r.ModifiedTime ∧ r.ModifiedTime < 2 ^ 63 ∧
  -(2 ^ 63) ≤ r.Size ∧ r.Size < 2 ^ 63 ∧ r.NTFSFileID < 2 ^ 64 ∧
  '\r' ∉ r.Path.data ∧ '\r' ∉ r.Hash.data

instance (r : FileInfo) : Decidable r.WF := by
  unfold FileInfo.WF; infer_instance

/-- The manifest header row (`writeManifest`, unnamed part 009). -/
def manifestHeader : List String :=
  ["Path", "ModifiedTime", "Size", "Hash", "NtfsFileId"]

/-- The five serialized fields of one record, in file order. -/
def recordFields (r : FileInfo) : List String :=
  [r.Path, String.mk (intToDec r.ModifiedTime), String.mk (intToDec r.Size),
    r.Hash, String.mk (natToDec r.NTFSFileID)]

/-- The `sort.Slice(fileInfoSlice, func(i, j) { return s[i].Path < s[j].Path })`
step.  `sort.Slice` is unstable, but it only runs after the duplicate-path
check, so the result is the unique path-sorted arrangement; insertion sort
realizes it. -/
def sortByPath (l : List FileInfo) : List FileInfo :=
  l.insertionSort (fun a b => lexLt b.Path.data a.Path.data = false)

/-- The record list `writeManifest` (unnamed part 009) emits: `none` when a
duplicate path is found (the check runs before anything is written),
otherwise the records sorted by path. -/
def writeManifestRecords (l : List FileInfo) : Option (List FileInfo) :=
  if (l.map FileInfo.Path).Nodup then some (sortByPath l) else none

/-- `writeManifest` of `internal/core`: duplicate check, sort by path, then
the header row and one 5-field CSV row per record. -/
def writeManifest (l : List FileInfo) : Option String :=
  (writeManifestRecords l).map
    (fun out => String.mk (encodeRows (manifestHeader :: out.map recordFields)))

/-- Decode one parsed CSV row into a record (`readManifest` body): exactly
five fields; `ModifiedTime` and `Size` via `ParseInt`, `NtfsFileId` via
`ParseUint`; `time.Unix(unixTime, 0)` keeps whole seconds. -/
def parseRow (row : List String) : Option FileInfo :=
  match row with
  | [p, t, z, h, fid] =>
    match goParseInt t, goParseInt z, goParseUint fid with
    | some t2, some z2, some fid2 => some ⟨p, t2, z2, h, fid2⟩
    | _, _, _ => none
  | _ => none

/-- Decode the data rows one by one, failing on the first bad row. -/
def parseRows : List (List String) → Option (List FileInfo)
  | [] => some []
  | row :: rest =>
    match parseRow row, parseRows rest with
    | some r, some rs => some (r :: rs)
    | _, _ => none

/-- `readManifest` of `internal/core` (unnamed part 009): CSV-parse with
`FieldsPerRecord = 5`; the header must be present with five fields; each
data row yields one record.  (Go surfaces a wrong field count lazily during
`Read` while this model checks after parsing; acceptance is the same.) -/
def readManifest (s : String) : Option (List FileInfo) :=
  match parseRecords (normCRLF s.data) with
  | none => none
  | some [] => none
  | some (header :: rows) =>
    if header.length = 5 then parseRows rows else none

/-- One file discovered by the directory walk of `update` (unnamed part
008): relative path (slash-normalized), `ModTime().Unix()`, `Size()`, the
NTFS file id, and the digest `calculateMD5` would return for its bytes. -/
structure ScanEntry where
  path : String
  mtime : Int
  size : Int
  fileID : Nat
  md5 : String
deriving DecidableEq, Repr

/-- Well-formedness of a scan entry (same fixed-width and no-`\r`
constraints as `FileInfo.WF`). -/
def ScanEntry.WF (e : ScanEntry) : Prop :=
  -(2 ^ 63) ≤ e.mtime ∧ e.mtime < 2 ^ 63 ∧
  -(2 ^ 63) ≤ e.size ∧ e.size < 2 ^ 63 ∧ e.fileID < 2 ^ 64 ∧
  '\r' ∉ e.path.data ∧ '\r' ∉ e.md5.data

instance (e : ScanEntry) : Decidable e.WF := by
  unfold ScanEntry.WF; infer_instance

/-- `oldManifestMapByPath` lookup: Go map insertion iterates the slice in
order, later entries overwriting earlier ones, so a lookup returns the last
record with the given path. -/
def lookupByPath (old : List FileInfo) (p : String) : Option FileInfo :=
  old.reverse.find? (fun r => r.Path == p)

/-- `oldManifestMapByFileID` lookup (same overwrite semantics). -/
def lookupByFileID (old : List FileInfo) (id : Nat) : Option FileInfo :=
  old.reverse.find? (fun r => r.NTFSFileID == id)

/-- The new-file branch of `update`: compute the MD5 (the `true` marker
records that `calculateMD5` read the file) and build a fresh record. -/
def freshRecord (e : ScanEntry) : FileInfo × Bool :=
  (⟨e.path, e.mtime, e.size, e.md5, e.fileID⟩, true)

/-- `condition2`/else of `update`: a stable-id match with equal size and
whole-second mtime reuses the old record with only `Path` overwritten;
otherwise the file is hashed afresh. -/
def updateStepById (e : ScanEntry) : Option FileInfo → FileInfo × Bool
  | some r2 =>
    if e.mtime = r2.ModifiedTime ∧ e.size = r2.Size then
      ({ r2 with Path := e.path }, false)
    else freshRecord e
  | none => freshRecord e

/-- The per-file body of `update` (unnamed part 008, lines 136–162):
`condition1` (path match with equal size/mtime) reuses the old record
verbatim; `condition2` (stable-id match) is tried next; else rehash. -/
def updateStep (old : List FileInfo) (e : ScanEntry) : FileInfo × Bool :=
  match lookupByPath old e.path with
  | some r1 =>
    if e.mtime = r1.ModifiedTime ∧ e.size = r1.Size then (r1, false)
    else updateStepById e (lookupByFileID old e.fileID)
  | none => updateStepById e (lookupByFileID old e.fileID)

/-- The reconciliation loop of `update`: the new manifest slice in walk
order, together with the relative paths of the files whose content was read
(`calculateMD5` invocations). -/
def update (old : List FileInfo) (scan : List ScanEntry) :
    List FileInfo × List String :=
  (scan.map (fun e => (updateStep old e).1),
    (scan.filter (fun e => (updateStep old e).2)).map ScanEntry.path)

/-- Observable filesystem outcome of one `create`/`update` command
invocation: whether the destination manifest file was created, and the
manifest bytes written into it (if the command got that far). -/
structure CommandResult where
  manifestFileCreated : Bool
  manifestWritten : Option String
deriving DecidableEq, Repr

/-- The `update` command of `internal/core` (unnamed part 008, lines
52–186), with the filesystem abstracted: `isNTFS` gate, then `createFile`
(fails when the destination exists, creates the — still empty — file
otherwise), then `readManifest` of the old manifest (aborting on a parse
error, after the destination was already created), then the walk and
`writeManifest`.  `runUpdate` of `update.go` (lines 42–53) orders
`createFile` and `readManifest` the same way. -/
def updateCommand (ntfs destExists : Bool) (oldBytes : String)
    (scan : List ScanEntry) : CommandResult :=
  if ntfs = false then ⟨false, none⟩
  else if destExists then ⟨false, none⟩
  else
    match readManifest oldBytes with
    | none => ⟨true, none⟩
    | some old => ⟨true, writeManifest (update old scan).1⟩

/-- The `create` command of `internal/core` (`create.go`): `isNTFS` gate,
`createFile`, full walk with hashing, sort by path, `writeManifest`. -/
def createCommand (ntfs destExists : Bool) (scan : List ScanEntry) :
    CommandResult :=
  if ntfs = false then ⟨false, none⟩
  else if destExists then ⟨false, none⟩
  else ⟨true, writeManifest (sortByPath (scan.map (fun e => (freshRecord e).1)))⟩

end Core

namespace Main

/-- `FileInfo` of the flat `package main` generation (unnamed part 001):
four fields, no NTFS file id. -/
structure FileInfo where
  Path : String
  ModifiedTime : Int
  Size : Int
  Hash : String
deriving DecidableEq, Repr

/-- `toCSVField` (unnamed part 004): quote only when the field contains a
comma, `\n`, `\r` or a quote, doubling interior quotes. -/
def toCSVField (s : String) : String :=
  if s.data.contains ',' || s.data.contains '\n' ||
      s.data.contains '\r' || s.data.contains '"' then
    String.mk ('"' :: (escapeQ s.data ++ ['"']))
  else s

/-- `writeManifest` (unnamed part 004): a fixed header line, then one line
per record in slice order — no sorting and no duplicate check here —
each field through `toCSVField`. -/
def writeManifest (l : List FileInfo) : String :=
  String.mk ("Path,ModifiedTime,Size,Hash\n".data ++
    (l.map (fun r =>
      (toCSVField r.Path).data ++ ',' ::
        ((toCSVField (String.mk (intToDec r.ModifiedTime))).data ++ ',' ::
          ((toCSVField (String.mk (intToDec r.Size))).data ++ ',' ::
            ((toCSVField r.Hash).data ++ ['\n']))))).flatten)

/-- Strip one trailing `\r` (what `bufio.ScanLines` does to each line). -/
def dropCR (line : List Char) : List Char :=
  match line.reverse with
  | '\r' :: r => r.reverse
  | _ => line

/-- Split input into lines as `bufio.Scanner` with `ScanLines` does:
tokens are `\n`-separated, a trailing `\r` is stripped, a final newline
produces no empty token. -/
def splitLinesAux : Nat → List Char → List (List Char)
  | 0, _ => []
  | _, [] => []
  | fuel + 1, c :: r =>
    let line := (c :: r).takeWhile (fun x => x ≠ '\n')
    let rest := (c :: r).dropWhile (fun x => x ≠ '\n')
    dropCR line ::
      match rest with
      | [] => []
      | _ :: rr => splitLinesAux fuel rr

/-- Line splitting with sufficient fuel. -/
def splitLines (cs : List Char) : List (List Char) :=
  splitLinesAux (cs.length + 1) cs

/-- First split of `strings.SplitN(s, sep, n)`: the part before the first
separator and the rest, or `none` when the separator does not occur. -/
def breakAtComma : List Char → Option (List Char × List Char)
  | [] => none
  | c :: r =>
    if c = ',' then some ([], r)
    else (breakAtComma r).map (fun x => (c :: x.1, x.2))

/-- Model of `strings.SplitN(s, ",", n)` for `n ≥ 1`: at most `n`
substrings, the last one keeping any remaining commas. -/
def splitN : Nat → List Char → List (List Char)
  | 0, _ => []
  | 1, cs => [cs]
  | n + 2, cs =>
    match breakAtComma cs with
    | none => [cs]
    | some (pre, post) => pre :: splitN (n + 1) post

/-- The line loop of `readManifest` (unnamed part 004): skip the first line
and empty lines, `SplitN` each remaining line into at most four raw fields
(no unquoting), require exactly four, `ParseInt` the two numeric ones. -/
def readLoop : Bool → List (List Char) → Option (List FileInfo)
  | _, [] => some []
  | first, line :: rest =>
    if line = [] ∨ first then readLoop false rest
    else
      match splitN 4 line with
      | [p, t, z, h] =>
        match goParseInt (String.mk t), goParseInt (String.mk z) with
        | some t2, some z2 =>
          (readLoop false rest).map
            (fun rs => ⟨String.mk p, t2, z2, String.mk h⟩ :: rs)
        | _, _ => none
      | _ => none

/-- `readManifest` (unnamed part 004). -/
def readManifest (s : String) : Option (List FileInfo) :=
  readLoop true (splitLines s.data)

/-- Diff categories of `runCompare` (`update.go`): `removed` is printed as
`[<--]` (present only in the first input), `added` as `[-->]` (present only
in the second), `modified` as `[=/=]`. -/
inductive DiffKind where
  | removed
  | added
  | modified
deriving DecidableEq, Repr

/-- Go map insert with overwrite-on-duplicate-key semantics, keyed by
record path. -/
def insertByPath (m : List (String × FileInfo)) (fi : FileInfo) :
    List (String × FileInfo) :=
  if m.any (fun q => q.1 == fi.Path) then
    m.map (fun q => if q.1 == fi.Path then (fi.Path, fi) else q)
  else m ++ [(fi.Path, fi)]

/-- `fileInfoSliceToMap` (`update.go`): fold the slice into a map by path.
The association list keeps insertion order; Go map iteration order is
arbitrary, but every output of `runCompare` is re-sorted by path, so the
order of this list is never observable. -/
def fileInfoSliceToMap (l : List FileInfo) : List (String × FileInfo) :=
  l.foldl insertByPath []

/-- Map lookup (keys are unique after `fileInfoSliceToMap`). -/
def lookupMap (m : List (String × FileInfo)) (p : String) : Option FileInfo :=
  (m.find? (fun q => q.1 == p)).map (fun q => q.2)

/-- The classification pass of `runCompare` (`update.go`, lines 294–340)
over the entries of the first map: a path absent from the second map is
`removed`; for a shared path the code computes `mtimeEqual`, `sizeEqual`
and `hashEqual` (hashes only compared when `strict`), but appends the
`modified` output only inside the `!sizeEqual` branch — faithfully
reproduced here. -/
def classifyFirst (strict : Bool) (m2 : List (String × FileInfo))
    (pr : String × FileInfo) : Option (String × DiffKind) :=
  match lookupMap m2 pr.1 with
  | none => some (pr.1, DiffKind.removed)
  | some fi2 =>
    let mtimeEqual := pr.2.ModifiedTime = fi2.ModifiedTime
    let sizeEqual := pr.2.Size = fi2.Size
    let hashEqual := ¬strict = true ∨ pr.2.Hash = fi2.Hash
    if ¬mtimeEqual ∨ ¬sizeEqual ∨ ¬hashEqual then
      if ¬sizeEqual then some (pr.1, DiffKind.modified) else none
    else none

/-- The second loop of `runCompare` (`update.go`, lines 326–331): a path of
the second map absent from the first map is emitted as `added` (`[-->]`). -/
def classifySecond (m1 : List (String × FileInfo)) (pr : String × FileInfo) :
    Option (String × DiffKind) :=
  match lookupMap m1 pr.1 with
  | none => some (pr.1, DiffKind.added)
  | some _ => none

/-- `runCompare` (`update.go`): classify every path of the first input,
emit `added` for every path only in the second, and sort the outputs by
path. -/
def runCompare (strict : Bool) (s1 s2 : List FileInfo) :
    List (String × DiffKind) :=
  let m1 := fileInfoSliceToMap s1
  let m2 := fileInfoSliceToMap s2
  let part1 := m1.filterMap (classifyFirst strict m2)
  let part2 := m2.filterMap (classifySecond m1)
  (part1 ++ part2).insertionSort (fun a b => a.1 ≤ b.1)

/-- `runCreate` (unnamed part 001): when the destination exists the user is
prompted; declining cancels; confirming proceeds to `createFile`, which
itself fails because the file exists — so an existing destination is never
overwritten.  Otherwise the walk+hash pipeline runs, the slice is sorted by
path and written with the legacy writer. -/
def runCreate (destExists confirmed : Bool) (scan : List Core.ScanEntry) :
    Core.CommandResult :=
  if destExists ∧ ¬confirmed then ⟨false, none⟩
  else if destExists then ⟨false, none⟩
  else
    ⟨true, some (writeManifest
      (((scan.map (fun e => (⟨e.path, e.mtime, e.size, e.md5⟩ : FileInfo))).insertionSort
        (fun a b => a.Path ≤ b.Path))))⟩

end Main

/-! ## Lemmas: decimal codec -/

theorem digit?_digitChar (d : Nat) (h : d < 10) : digit? (digitChar d) = some d := by
  interval_cases d <;> rfl

theorem digitChar_mem_range (d : Nat) (h : d < 10) :
    digitChar d ∈ ['0', '1', '2', '3', '4', '5', '6', '7', '8', '9'] := by
  interval_cases d <;> simp [digitChar]

theorem mem_natToDecAux (fuel n : Nat) (c : Char) (hc : c ∈ natToDecAux fuel n) :
    ∃ d, d < 10 ∧ c = digitChar d := by
  induction fuel generalizing n with
  | zero => simp [natToDecAux] at hc
  | succ fuel ih =>
    unfold natToDecAux at hc
    by_cases h : n < 10
    · rw [if_pos h] at hc
      simp only [List.mem_singleton] at hc
      exact ⟨n, h, hc⟩
    · rw [if_neg h] at hc
      rcases List.mem_append.1 hc with h1 | h1
      · exact ih (n / 10) h1
      · simp only [List.mem_singleton] at h1
        exact ⟨n % 10, Nat.mod_lt _ (by omega), h1⟩

theorem natToDecAux_ne_nil (fuel n : Nat) (h : n < fuel) :
    natToDecAux fuel n ≠ [] := by
  cases fuel with
  | zero => omega
  | succ fuel =>
    unfold natToDecAux
    by_cases h10 : n < 10
    · simp [h10]
    · rw [if_neg h10]
      simp

theorem parseDigitsAux_append (acc : Nat) (a b : List Char) :
    parseDigitsAux acc (a ++ b) =
      match parseDigitsAux acc a with
      | some x => parseDigitsAux x b
      | none => none := by
  induction a generalizing acc with
  | nil => simp [parseDigitsAux]
  | cons c r ih =>
    simp only [List.cons_append, parseDigitsAux]
    cases digit? c with
    | none => rfl
    | some d => exact ih (10 * acc + d)

theorem parseDigitsAux_natToDecAux (fuel : Nat) :
    ∀ n acc, n < fuel →
      parseDigitsAux acc (natToDecAux fuel n) =
        some (acc * 10 ^ (natToDecAux fuel n).length + n) := by
  induction fuel with
  | zero => intro n acc h; omega
  | succ fuel ih =>
    intro n acc h
    unfold natToDecAux
    by_cases h10 : n < 10
    · rw [if_pos h10]
      simp only [parseDigitsAux, digit?_digitChar n h10, List.length_singleton,
        pow_one]
      congr 1
      ring
    · rw [if_neg h10]
      have hdiv : n / 10 < fuel := by
        have h1 : n / 10 < n := Nat.div_lt_self (by omega) (by omega)
        omega
      rw [parseDigitsAux_append]
      rw [ih (n / 10) acc hdiv]
      have hmod : n % 10 < 10 := Nat.mod_lt _ (by omega)
      simp only [parseDigitsAux, digit?_digitChar (n % 10) hmod]
      have hlen : (natToDecAux fuel (n / 10) ++ [digitChar (n % 10)]).length =
          (natToDecAux fuel (n / 10)).length + 1 := by simp
      rw [hlen]
      congr 1
      have := Nat.div_add_mod n 10
      ring_nf
      omega

theorem parseDigits_natToDec (n : Nat) : parseDigits (natToDec n) = some n := by
  have hne := natToDecAux_ne_nil (n + 1) n (by omega)
  unfold natToDec at hne ⊢
  cases hlist : natToDecAux (n + 1) n with
  | nil => exact absurd hlist hne
  | cons c r =>
    have := parseDigitsAux_natToDecAux (n + 1) n 0 (by omega)
    rw [hlist] at this
    simpa [parseDigits] using this

theorem goParseUint_natToDec (n : Nat) (h : n < 2 ^ 64) :
    goParseUint (String.mk (natToDec n)) = some n := by
  have h2 : n < 18446744073709551616 := by omega
  simp [goParseUint, parseDigits_natToDec, h2]

theorem natToDec_head_digit (n : Nat) :
    ∃ d r, d < 10 ∧ natToDec n = digitChar d :: r := by
  have hne := natToDecAux_ne_nil (n + 1) n (by omega)
  unfold natToDec at hne ⊢
  cases hlist : natToDecAux (n + 1) n with
  | nil => exact absurd hlist hne
  | cons c r =>
    have hc : c ∈ natToDecAux (n + 1) n := by rw [hlist]; simp
    obtain ⟨d, hd, rfl⟩ := mem_natToDecAux (n + 1) n c hc
    exact ⟨d, r, hd, rfl⟩

theorem goParseInt_intToDec (i : Int) (hlo : -(2 ^ 63) ≤ i) (hhi : i < 2 ^ 63) :
    goParseInt (String.mk (intToDec i)) = some i := by
  by_cases hneg : i < 0
  · have hbound : (-i).toNat ≤ 2 ^ 63 := by omega
    simp only [intToDec, if_pos hneg, goParseInt, parseDigits_natToDec]
    norm_num [hbound]
    omega
  · obtain ⟨d, r, hd, hrep⟩ := natToDec_head_digit i.toNat
    have hminus : digitChar d ≠ '-' := by interval_cases d <;> simp [digitChar]
    have hplus : digitChar d ≠ '+' := by interval_cases d <;> simp [digitChar]
    have hbound : i.toNat < 2 ^ 63 := by omega
    simp only [intToDec, if_neg hneg, goParseInt, hrep]
    rw [if_neg hminus, if_neg hplus, ← hrep, parseDigits_natToDec]
    norm_num [hbound]
    omega

/-! ## Lemmas: characters of encoded CSV, and `\r\n` normalization -/

theorem mem_escapeQ (f : List Char) (c : Char) (hc : c ∈ escapeQ f) : c ∈ f := by
  induction f with
  | nil => simp [escapeQ] at hc
  | cons x r ih =>
    unfold escapeQ at hc
    by_cases hx : x = '"'
    · rw [if_pos hx, List.mem_cons, List.mem_cons] at hc
      rcases hc with h | h | h
      · simp [h, hx]
      · simp [h, hx]
      · exact List.mem_cons_of_mem x (ih h)
    · rw [if_neg hx, List.mem_cons] at hc
      rcases hc with h | h
      · simp [h]
      · exact List.mem_cons_of_mem x (ih h)

theorem mem_encodeField (f : List Char) (c : Char) (hc : c ∈ encodeField f) :
    c ∈ f ∨ c = '"' := by
  unfold encodeField at hc
  by_cases hq : needsQuotes f
  · rw [if_pos hq, List.mem_cons] at hc
    rcases hc with h | h
    · right; exact h
    · rcases List.mem_append.1 h with h1 | h1
      · left; exact mem_escapeQ f c h1
      · right; simpa using h1
  · rw [if_neg hq] at hc
    left; exact hc

theorem mem_joinComma (fs : List (List Char)) (c : Char) (hc : c ∈ joinComma fs) :
    (∃ f ∈ fs, c ∈ f) ∨ c = ',' ∨ c = '"' := by
  induction fs with
  | nil => simp [joinComma] at hc
  | cons f rest ih =>
    cases rest with
    | nil =>
      simp only [joinComma] at hc
      rcases mem_encodeField f c hc with h | h
      · exact Or.inl ⟨f, by simp, h⟩
      · exact Or.inr (Or.inr h)
    | cons g r2 =>
      simp only [joinComma, List.mem_append, List.mem_cons] at hc
      rcases hc with h | h | h
      · rcases mem_encodeField f c h with h1 | h1
        · exact Or.inl ⟨f, by simp, h1⟩
        · exact Or.inr (Or.inr h1)
      · exact Or.inr (Or.inl h)
      · rcases ih h with ⟨f2, hf2, hcf2⟩ | h1
        · exact Or.inl ⟨f2, List.mem_cons_of_mem f hf2, hcf2⟩
        · exact Or.inr h1

theorem mem_encodeRows (rows : List (List String)) (c : Char)
    (hc : c ∈ encodeRows rows) :
    (∃ row ∈ rows, ∃ f ∈ row, c ∈ f.data) ∨ c = ',' ∨ c = '"' ∨ c = '\n' := by
  unfold encodeRows at hc
  rw [List.mem_flatten] at hc
  obtain ⟨l, hl, hcl⟩ := hc
  rw [List.mem_map] at hl
  obtain ⟨row, hrow, rfl⟩ := hl
  unfold encodeRow at hcl
  rcases List.mem_append.1 hcl with h | h
  · rcases mem_joinComma (row.map String.data) c h with ⟨f, hf, hcf⟩ | h1 | h1
    · rw [List.mem_map] at hf
      obtain ⟨s, hs, rfl⟩ := hf
      exact Or.inl ⟨row, hrow, s, hs, hcf⟩
    · exact Or.inr (Or.inl h1)
    · exact Or.inr (Or.inr (Or.inl h1))
  · simp only [List.mem_singleton] at h
    exact Or.inr (Or.inr (Or.inr h))

theorem normCRLF_eq_self (cs : List Char) (h : '\r' ∉ cs) : normCRLF cs = cs := by
  induction cs using normCRLF.induct with
  | case1 => rfl
  | case2 c => rfl
  | case3 c c2 r hif ih =>
    exact absurd (by simp [hif.1]) h
  | case4 c c2 r hif ih =>
    unfold normCRLF
    rw [if_neg hif]
    have : '\r' ∉ c2 :: r := by
      intro hmem
      exact h (List.mem_cons_of_mem c hmem)
    rw [ih this]

/-! ## Lemmas: the CSV reader inverts the CSV writer -/

theorem mk_data (s : String) : String.mk s.data = s := rfl

theorem needsQuotes_false_cons (c : Char) (r : List Char)
    (h : needsQuotes (c :: r) = false) :
    (c :: r).contains ',' = false ∧ (c :: r).contains '"' = false ∧
      (c :: r).contains '\n' = false := by
  simp only [needsQuotes] at h
  by_cases hcase : c :: r = ['\\', '.']
  · rw [if_pos hcase] at h
    exact absurd h (by simp)
  · rw [if_neg hcase] at h
    simp only [Bool.or_eq_false_iff] at h
    obtain ⟨⟨⟨⟨h1, h2⟩, h3⟩, h4⟩, h5⟩ := h
    exact ⟨h1, h2, h4⟩

theorem ne_of_contains_false (x : Char) (xs : List Char) (a : Char)
    (h : (x :: xs).contains a = false) : x ≠ a ∧ xs.contains a = false := by
  simp only [List.contains_cons, Bool.or_eq_false_iff, beq_eq_false_iff_ne] at h
  exact ⟨h.1.symm, h.2⟩

theorem takeUntilSep_append (f : List Char) (sep : Char) (rest : List Char)
    (hf1 : f.contains ',' = false) (hf2 : f.contains '\n' = false)
    (hsep : sep = ',' ∨ sep = '\n') :
    takeUntilSep (f ++ sep :: rest) =
      (f, if sep = ',' then Term.comma else Term.newline, rest) := by
  induction f with
  | nil =>
    rcases hsep with rfl | rfl
    · simp [takeUntilSep]
    · simp [takeUntilSep]
  | cons x xs ih =>
    obtain ⟨hx1, hxs1⟩ := ne_of_contains_false x xs ',' hf1
    obtain ⟨hx2, hxs2⟩ := ne_of_contains_false x xs '\n' hf2
    have hrec := ih hxs1 hxs2
    simp only [List.cons_append, takeUntilSep, List.append_eq, hrec,
      if_neg hx1, if_neg hx2]

theorem parseQuotedBody_cons_cons (c c2 : Char) (r2 : List Char) :
    parseQuotedBody (c :: c2 :: r2) =
      if c = '"' then
        if c2 = ',' then some ([], Term.comma, r2)
        else if c2 = '\n' then some ([], Term.newline, r2)
        else if c2 = '"' then
          (parseQuotedBody r2).map (fun x => ('"' :: x.1, x.2.1, x.2.2))
        else none
      else (parseQuotedBody (c2 :: r2)).map (fun x => (c :: x.1, x.2.1, x.2.2)) := rfl

theorem parseQuotedBody_escapeQ (f : List Char) (sep : Char) (rest : List Char)
    (hsep : sep = ',' ∨ sep = '\n') :
    parseQuotedBody (escapeQ f ++ '"' :: sep :: rest) =
      some (f, if sep = ',' then Term.comma else Term.newline, rest) := by
  induction f with
  | nil =>
    rcases hsep with rfl | rfl
    · simp [escapeQ, parseQuotedBody]
    · simp [escapeQ, parseQuotedBody]
  | cons x xs ih =>
    by_cases hx : x = '"'
    · subst hx
      have hshape : escapeQ ('"' :: xs) ++ '"' :: sep :: rest =
          '"' :: '"' :: (escapeQ xs ++ '"' :: sep :: rest) := rfl
      have hstep : parseQuotedBody ('"' :: '"' :: (escapeQ xs ++ '"' :: sep :: rest)) =
          (parseQuotedBody (escapeQ xs ++ '"' :: sep :: rest)).map
            (fun y => ('"' :: y.1, y.2.1, y.2.2)) := rfl
      rw [hshape, hstep, ih]
      rfl
    · obtain ⟨c2, r2, hE⟩ := List.exists_cons_of_ne_nil
        (show escapeQ xs ++ '"' :: sep :: rest ≠ [] by simp)
      have hshape : escapeQ (x :: xs) ++ '"' :: sep :: rest =
          x :: (escapeQ xs ++ '"' :: sep :: rest) := by
        show (if x = '"' then '"' :: '"' :: escapeQ xs else x :: escapeQ xs) ++
          '"' :: sep :: rest = x :: (escapeQ xs ++ '"' :: sep :: rest)
        rw [if_neg hx]
        rfl
      rw [hshape, hE, parseQuotedBody_cons_cons, if_neg hx, ← hE, ih]
      rfl

theorem parseField_encodeField (f : List Char) (sep : Char) (rest : List Char)
    (hsep : sep = ',' ∨ sep = '\n') :
    parseField (encodeField f ++ sep :: rest) =
      some (f, if sep = ',' then Term.comma else Term.newline, rest) := by
  unfold encodeField
  by_cases hq : needsQuotes f
  · rw [if_pos hq]
    have hshape : ('"' :: (escapeQ f ++ ['"'])) ++ sep :: rest =
        '"' :: (escapeQ f ++ '"' :: sep :: rest) := by simp
    rw [hshape]
    have hstep : parseField ('"' :: (escapeQ f ++ '"' :: sep :: rest)) =
        parseQuotedBody (escapeQ f ++ '"' :: sep :: rest) := rfl
    rw [hstep]
    exact parseQuotedBody_escapeQ f sep rest hsep
  · rw [if_neg hq]
    cases f with
    | nil =>
      rcases hsep with rfl | rfl
      · simp [parseField, takeUntilSep]
      · simp [parseField, takeUntilSep]
    | cons x xs =>
      obtain ⟨h1, h2, h3⟩ := needsQuotes_false_cons x xs (by simpa using hq)
      obtain ⟨hxq, _⟩ := ne_of_contains_false x xs '"' h2
      simp only [List.cons_append, parseField]
      rw [if_neg hxq]
      rw [show (x :: (xs ++ sep :: rest)) = (x :: xs) ++ sep :: rest from rfl]
      rw [takeUntilSep_append (x :: xs) sep rest h1 h3 hsep]
      rw [h2]
      rfl

theorem parseRecordAux_joinComma (fs : List String) :
    ∀ (fuel : Nat) (rest : List Char), fs ≠ [] → fs.length ≤ fuel →
      parseRecordAux fuel (joinComma (fs.map String.data) ++ '\n' :: rest) =
        some (fs, rest) := by
  induction fs with
  | nil => intro fuel rest hne; exact absurd rfl hne
  | cons s fs2 ih =>
    intro fuel rest _ hlen
    cases fs2 with
    | nil =>
      cases fuel with
      | zero => simp at hlen
      | succ fuel2 =>
        have hfield := parseField_encodeField s.data '\n' rest (Or.inr rfl)
        rw [if_neg (by decide)] at hfield
        simp only [List.map, joinComma, parseRecordAux, hfield, mk_data]
    | cons s2 fs3 =>
      cases fuel with
      | zero => simp at hlen
      | succ fuel2 =>
        have hshape : joinComma ((s :: s2 :: fs3).map String.data) ++ '\n' :: rest =
            encodeField s.data ++
              ',' :: (joinComma ((s2 :: fs3).map String.data) ++ '\n' :: rest) := by
          simp [joinComma]
        rw [hshape]
        have hfield := parseField_encodeField s.data ','
          (joinComma ((s2 :: fs3).map String.data) ++ '\n' :: rest) (Or.inl rfl)
        rw [if_pos rfl] at hfield
        have hrec := ih fuel2 rest (by simp)
          (by simpa using Nat.le_of_succ_le_succ hlen)
        simp only [List.map] at hfield hrec ⊢
        simp only [parseRecordAux, hfield, hrec, Option.map, mk_data]

theorem joinComma_length_ge (fs : List (List Char)) :
    fs.length ≤ (joinComma fs).length + 1 := by
  induction fs with
  | nil => simp [joinComma]
  | cons f rest ih =>
    cases rest with
    | nil => simp [joinComma]
    | cons g r2 =>
      simp only [joinComma, List.length_append, List.length_cons] at ih ⊢
      omega

theorem head_joinComma_two (a b : List Char) (fs : List (List Char)) :
    ∃ c cs, joinComma (a :: b :: fs) = c :: cs ∧ c ≠ '\n' := by
  by_cases hq : needsQuotes a
  · refine ⟨'"', escapeQ a ++ ['"'] ++ (',' :: joinComma (b :: fs)), ?_, by decide⟩
    simp [joinComma, encodeField, hq]
  · cases a with
    | nil =>
      refine ⟨',', joinComma (b :: fs), ?_, by decide⟩
      simp [joinComma, encodeField, hq]
    | cons x xs =>
      obtain ⟨h1, h2, h3⟩ := needsQuotes_false_cons x xs (by simpa using hq)
      obtain ⟨hx, _⟩ := ne_of_contains_false x xs '\n' h3
      refine ⟨x, xs ++ ',' :: joinComma (b :: fs), ?_, hx⟩
      simp [joinComma, encodeField, hq]

theorem encodeRows_length_ge (rows : List (List String)) :
    rows.length ≤ (encodeRows rows).length := by
  induction rows with
  | nil => simp [encodeRows]
  | cons row rest ih =>
    have h1 : encodeRows (row :: rest) = encodeRow row ++ encodeRows rest := by
      simp [encodeRows]
    have h2 : (encodeRow row).length =
        (joinComma (row.map String.data)).length + 1 := by
      simp [encodeRow]
    rw [h1, List.length_append, h2, List.length_cons]
    omega

theorem parseRecordsAux_encodeRows (rows : List (List String)) :
    ∀ fuel : Nat, (∀ row ∈ rows, 2 ≤ row.length) → rows.length < fuel →
      parseRecordsAux fuel (encodeRows rows) = some rows := by
  induction rows with
  | nil =>
    intro fuel _ hf
    cases fuel with
    | zero => omega
    | succ fuel2 => rfl
  | cons row rest ih =>
    intro fuel hrows hf
    cases fuel with
    | zero => omega
    | succ fuel2 =>
      have hrowlen : 2 ≤ row.length := hrows row (by simp)
      obtain ⟨s1, row2, rfl⟩ : ∃ s1 row2, row = s1 :: row2 := by
        cases row with
        | nil => simp at hrowlen
        | cons a r => exact ⟨a, r, rfl⟩
      obtain ⟨s2, row3, rfl⟩ : ∃ s2 row3, row2 = s2 :: row3 := by
        cases row2 with
        | nil => simp at hrowlen
        | cons a r => exact ⟨a, r, rfl⟩
      obtain ⟨c, cs, hjoin, hcne⟩ :=
        head_joinComma_two s1.data s2.data (row3.map String.data)
      have hjoin2 : joinComma ((s1 :: s2 :: row3).map String.data) = c :: cs := by
        simpa using hjoin
      have hshape : encodeRows ((s1 :: s2 :: row3) :: rest) =
          c :: (cs ++ '\n' :: encodeRows rest) := by
        simp [encodeRows, encodeRow, hjoin]
      have hback : c :: (cs ++ '\n' :: encodeRows rest) =
          joinComma ((s1 :: s2 :: row3).map String.data) ++
            '\n' :: encodeRows rest := by
        rw [hjoin2]
        simp
      have hlen1 : (s1 :: s2 :: row3).length ≤
          (joinComma ((s1 :: s2 :: row3).map String.data)).length + 1 := by
        simpa using joinComma_length_ge ((s1 :: s2 :: row3).map String.data)
      have hfuelrec : (s1 :: s2 :: row3).length ≤
          (joinComma ((s1 :: s2 :: row3).map String.data) ++
            '\n' :: encodeRows rest).length + 1 := by
        have hx : (joinComma ((s1 :: s2 :: row3).map String.data)).length ≤
            (joinComma ((s1 :: s2 :: row3).map String.data) ++
              '\n' :: encodeRows rest).length := by
          rw [List.length_append]
          omega
        omega
      have hrecval := parseRecordAux_joinComma (s1 :: s2 :: row3)
        ((joinComma ((s1 :: s2 :: row3).map String.data) ++
          '\n' :: encodeRows rest).length + 1) (encodeRows rest) (by simp) hfuelrec
      have hihval := ih fuel2 (fun r hr => hrows r (List.mem_cons_of_mem _ hr))
        (by simpa using Nat.lt_of_succ_lt_succ hf)
      rw [hshape]
      simp only [parseRecordsAux, if_neg hcne, hback, hrecval, hihval,
        Option.map]

theorem parseRecords_encodeRows (rows : List (List String))
    (hrows : ∀ row ∈ rows, 2 ≤ row.length) :
    parseRecords (encodeRows rows) = some rows := by
  unfold parseRecords
  exact parseRecordsAux_encodeRows rows ((encodeRows rows).length + 1) hrows
    (by have := encodeRows_length_ge rows; omega)

theorem cr_not_mem_natToDec (n : Nat) : '\r' ∉ natToDec n := by
  intro h
  obtain ⟨d, hd, hEq⟩ := mem_natToDecAux (n + 1) n _ h
  interval_cases d <;> exact absurd hEq (by decide)

/-! ## Lemmas: the lexicographic string order used by the sorts -/

theorem lexLt_asymm (x y : List Char) (h : lexLt x y = true) :
    lexLt y x = false := by
  induction x generalizing y with
  | nil =>
    cases y with
    | nil => simp [lexLt] at h
    | cons b bs => simp [lexLt]
  | cons a as ih =>
    cases y with
    | nil => simp [lexLt] at h
    | cons b bs =>
      simp only [lexLt] at h ⊢
      by_cases h1 : a < b
      · rw [if_neg (lt_asymm h1), if_pos h1]
      · rw [if_neg h1] at h
        by_cases h2 : b < a
        · rw [if_pos h2] at h
          cases h
        · rw [if_neg h2] at h
          rw [if_neg h2, if_neg h1]
          exact ih bs h

theorem lexLt_connected (x y : List Char) (h1 : lexLt x y = false)
    (h2 : lexLt y x = false) : x = y := by
  induction x generalizing y with
  | nil =>
    cases y with
    | nil => rfl
    | cons b bs => simp [lexLt] at h1
  | cons a as ih =>
    cases y with
    | nil => simp [lexLt] at h2
    | cons b bs =>
      simp only [lexLt] at h1 h2
      by_cases hab : a < b
      · rw [if_pos hab] at h1
        cases h1
      · by_cases hba : b < a
        · rw [if_pos hba] at h2
          cases h2
        · rw [if_neg hab, if_neg hba] at h1
          rw [if_neg hba, if_neg hab] at h2
          have hhead : a = b := le_antisymm (not_lt.1 hba) (not_lt.1 hab)
          rw [hhead, ih bs h1 h2]

theorem lexLt_trans (x y z : List Char) (h1 : lexLt x y = true)
    (h2 : lexLt y z = true) : lexLt x z = true := by
  induction x generalizing y z with
  | nil =>
    cases y with
    | nil => simp [lexLt] at h1
    | cons b bs =>
      cases z with
      | nil => simp [lexLt] at h2
      | cons c cs => simp [lexLt]
  | cons a as ih =>
    cases y with
    | nil => simp [lexLt] at h1
    | cons b bs =>
      cases z with
      | nil => simp [lexLt] at h2
      | cons c cs =>
        simp only [lexLt] at h1 h2 ⊢
        by_cases hab : a < b
        · by_cases hbc : b < c
          · rw [if_pos (lt_trans hab hbc)]
          · by_cases hcb : c < b
            · rw [if_neg hbc, if_pos hcb] at h2
              cases h2
            · have hbceq : b = c := le_antisymm (not_lt.1 hcb) (not_lt.1 hbc)
              rw [if_pos (hbceq ▸ hab)]
        · by_cases hba : b < a
          · rw [if_neg hab, if_pos hba] at h1
            cases h1
          · have habeq : a = b := le_antisymm (not_lt.1 hba) (not_lt.1 hab)
            rw [if_neg hab, if_neg hba] at h1
            subst habeq
            by_cases hac : a < c
            · rw [if_pos hac]
            · by_cases hca : c < a
              · rw [if_neg hac, if_pos hca] at h2
                cases h2
              · rw [if_neg hac, if_neg hca] at h2 ⊢
                exact ih bs cs h1 h2

theorem lexLt_le_trans (x y z : List Char) (h1 : lexLt y x = false)
    (h2 : lexLt z y = false) : lexLt z x = false := by
  by_cases hzx : lexLt z x = true
  · by_cases hyz : lexLt y z = true
    · by_cases hxy : lexLt x y = true
      · have := lexLt_trans x y z hxy hyz
        rw [lexLt_asymm _ _ this] at hzx
        cases hzx
      · have hxyeq : x = y :=
          lexLt_connected x y (by simpa using hxy) h1
        rw [hxyeq] at hzx
        rw [lexLt_asymm _ _ hyz] at hzx
        cases hzx
    · have hyzeq : y = z :=
        lexLt_connected y z (by simpa using hyz) h2
      rw [← hyzeq] at hzx
      rw [hzx] at h1
      cases h1
  · simpa using hzx

theorem cr_not_mem_intToDec (i : Int) : '\r' ∉ intToDec i := by
  unfold intToDec
  by_cases hneg : i < 0
  · rw [if_pos hneg]
    intro h
    rcases List.mem_cons.1 h with h1 | h1
    · exact absurd h1 (by decide)
    · exact cr_not_mem_natToDec _ h1
  · rw [if_neg hneg]
    exact cr_not_mem_natToDec _

namespace Core

theorem length_recordFields (r : FileInfo) : (recordFields r).length = 5 := rfl

theorem cr_not_mem_manifest_rows (l : List FileInfo) (hwf : ∀ r ∈ l, r.WF) :
    '\r' ∉ encodeRows (manifestHeader :: l.map recordFields) := by
  intro h
  rcases mem_encodeRows _ _ h with ⟨row, hrow, f, hf, hcf⟩ | h1 | h1 | h1
  · rcases List.mem_cons.1 hrow with hh | hh
    · subst hh
      simp only [manifestHeader, List.mem_cons, List.not_mem_nil, or_false] at hf
      rcases hf with h2 | h2 | h2 | h2 | h2 <;> subst h2 <;> revert hcf <;> decide
    · rw [List.mem_map] at hh
      obtain ⟨r, hr, rfl⟩ := hh
      obtain ⟨_, _, _, _, _, h6, h7⟩ := hwf r hr
      simp only [recordFields, List.mem_cons, List.not_mem_nil, or_false] at hf
      rcases hf with h2 | h2 | h2 | h2 | h2 <;> subst h2
      · exact h6 hcf
      · exact cr_not_mem_intToDec _ hcf
      · exact cr_not_mem_intToDec _ hcf
      · exact h7 hcf
      · exact cr_not_mem_natToDec _ hcf
  · exact absurd h1 (by decide)
  · exact absurd h1 (by decide)
  · exact absurd h1 (by decide)

theorem parseRow_recordFields (r : FileInfo) (h : r.WF) :
    parseRow (recordFields r) = some r := by
  obtain ⟨h1, h2, h3, h4, h5, _, _⟩ := h
  have hT := goParseInt_intToDec r.ModifiedTime h1 h2
  have hZ := goParseInt_intToDec r.Size h3 h4
  have hF := goParseUint_natToDec r.NTFSFileID h5
  rw [show recordFields r = [r.Path, String.mk (intToDec r.ModifiedTime),
    String.mk (intToDec r.Size), r.Hash, String.mk (natToDec r.NTFSFileID)]
    from rfl]
  simp only [parseRow, hT, hZ, hF]

theorem parseRows_map (l : List FileInfo)
    (h : ∀ r ∈ l, parseRow (recordFields r) = some r) :
    parseRows (l.map recordFields) = some l := by
  induction l with
  | nil => rfl
  | cons r rest ih =>
    simp only [List.map, parseRows, h r (by simp),
      ih (fun x hx => h x (List.mem_cons_of_mem r hx))]

theorem readManifest_encodeRows (l : List FileInfo) (hwf : ∀ r ∈ l, r.WF) :
    readManifest (String.mk (encodeRows (manifestHeader :: l.map recordFields)))
      = some l := by
  unfold readManifest
  rw [show (String.mk (encodeRows (manifestHeader :: l.map recordFields))).data =
    encodeRows (manifestHeader :: l.map recordFields) from rfl]
  rw [normCRLF_eq_self _ (cr_not_mem_manifest_rows l hwf)]
  have hlens : ∀ row ∈ manifestHeader :: l.map recordFields, 2 ≤ row.length := by
    intro row hrow
    rcases List.mem_cons.1 hrow with hh | hh
    · subst hh; decide
    · rw [List.mem_map] at hh
      obtain ⟨r, _, rfl⟩ := hh
      rw [length_recordFields]
      omega
  rw [parseRecords_encodeRows _ hlens]
  have hrows : parseRows (l.map recordFields) = some l :=
    parseRows_map l (fun r hr => parseRow_recordFields r (hwf r hr))
  simp only [manifestHeader, List.length_cons, hrows]
  rfl

/-! ## Lemmas: sorting, lookups and the reconciliation step -/

instance : IsTotal FileInfo
    (fun a b : FileInfo => lexLt b.Path.data a.Path.data = false) :=
  ⟨fun a b => by
    by_cases h : lexLt b.Path.data a.Path.data = true
    · exact Or.inr (lexLt_asymm _ _ h)
    · exact Or.inl (by simpa using h)⟩

instance : IsTrans FileInfo
    (fun a b : FileInfo => lexLt b.Path.data a.Path.data = false) :=
  ⟨fun a b c h1 h2 => lexLt_le_trans _ _ _ h1 h2⟩

theorem sortByPath_perm (l : List FileInfo) : List.Perm (sortByPath l) l :=
  List.perm_insertionSort _ l

theorem sortByPath_sorted (l : List FileInfo) :
    (sortByPath l).Pairwise
      (fun a b => lexLt b.Path.data a.Path.data = false) :=
  List.sorted_insertionSort _ l

theorem pairwise_ne_of_nodup (l : List FileInfo)
    (h : (l.map FileInfo.Path).Nodup) :
    l.Pairwise (fun a b => a.Path ≠ b.Path) := by
  rw [List.Nodup, List.pairwise_map] at h
  exact h

theorem sortByPath_strict (l : List FileInfo)
    (hnd : (l.map FileInfo.Path).Nodup) :
    (sortByPath l).Pairwise
      (fun a b => lexLt a.Path.data b.Path.data = true) := by
  have hperm := sortByPath_perm l
  have hnd2 : ((sortByPath l).map FileInfo.Path).Nodup :=
    ((hperm.map FileInfo.Path).symm).nodup hnd
  have hne := pairwise_ne_of_nodup _ hnd2
  refine ((sortByPath_sorted l).and hne).imp ?_
  rintro a b ⟨hle, hab⟩
  by_cases hlt : lexLt a.Path.data b.Path.data = true
  · exact hlt
  · exfalso
    have hdata := lexLt_connected _ _ (by simpa using hlt) hle
    exact hab (by
      have := congrArg String.mk hdata
      simpa [mk_data] using this)

theorem lookupByPath_eq_some (l : List FileInfo) (p : String) (r : FileInfo)
    (h : lookupByPath l p = some r) : r ∈ l ∧ r.Path = p := by
  unfold lookupByPath at h
  refine ⟨List.mem_reverse.1 (List.mem_of_find?_eq_some h), ?_⟩
  have h2 := List.find?_some h
  exact eq_of_beq h2

theorem lookupByPath_of_mem (l : List FileInfo) (p : String) (r : FileInfo)
    (hnd : (l.map FileInfo.Path).Nodup) (hr : r ∈ l) (hp : r.Path = p) :
    lookupByPath l p = some r := by
  cases hfind : lookupByPath l p with
  | none =>
    unfold lookupByPath at hfind
    rw [List.find?_eq_none] at hfind
    exact absurd (by simp [hp]) (hfind r (List.mem_reverse.2 hr))
  | some r2 =>
    obtain ⟨hr2mem, hr2p⟩ := lookupByPath_eq_some l p r2 hfind
    have heq : r2 = r :=
      List.inj_on_of_nodup_map hnd hr2mem hr (by rw [hr2p, hp])
    rw [heq]

theorem lookupByFileID_eq_some (l : List FileInfo) (id : Nat) (r : FileInfo)
    (h : lookupByFileID l id = some r) : r ∈ l ∧ r.NTFSFileID = id := by
  unfold lookupByFileID at h
  refine ⟨List.mem_reverse.1 (List.mem_of_find?_eq_some h), ?_⟩
  have h2 := List.find?_some h
  exact eq_of_beq h2

theorem updateStep_eq_some (old : List FileInfo) (e : ScanEntry) (r1 : FileInfo)
    (h : lookupByPath old e.path = some r1) :
    updateStep old e =
      if e.mtime = r1.ModifiedTime ∧ e.size = r1.Size then (r1, false)
      else updateStepById e (lookupByFileID old e.fileID) := by
  unfold updateStep
  rw [h]

theorem updateStep_eq_none (old : List FileInfo) (e : ScanEntry)
    (h : lookupByPath old e.path = none) :
    updateStep old e = updateStepById e (lookupByFileID old e.fileID) := by
  unfold updateStep
  rw [h]

theorem updateStepById_some (e : ScanEntry) (r2 : FileInfo) :
    updateStepById e (some r2) =
      if e.mtime = r2.ModifiedTime ∧ e.size = r2.Size then
        ({ r2 with Path := e.path }, false)
      else freshRecord e := rfl

theorem updateStepById_none (e : ScanEntry) :
    updateStepById e none = freshRecord e := rfl

theorem updateStepById_fields (e : ScanEntry) (o2 : Option FileInfo) :
    ((updateStepById e o2).1).Path = e.path ∧
      ((updateStepById e o2).1).ModifiedTime = e.mtime ∧
      ((updateStepById e o2).1).Size = e.size := by
  cases o2 with
  | none => exact ⟨rfl, rfl, rfl⟩
  | some r2 =>
    rw [updateStepById_some]
    by_cases hc : e.mtime = r2.ModifiedTime ∧ e.size = r2.Size
    · rw [if_pos hc]
      exact ⟨rfl, hc.1.symm, hc.2.symm⟩
    · rw [if_neg hc]
      exact ⟨rfl, rfl, rfl⟩

theorem updateStep_fields (old : List FileInfo) (e : ScanEntry) :
    ((updateStep old e).1).Path = e.path ∧
      ((updateStep old e).1).ModifiedTime = e.mtime ∧
      ((updateStep old e).1).Size = e.size := by
  cases hl : lookupByPath old e.path with
  | none =>
    rw [updateStep_eq_none old e hl]
    exact updateStepById_fields e _
  | some r1 =>
    rw [updateStep_eq_some old e r1 hl]
    by_cases hc : e.mtime = r1.ModifiedTime ∧ e.size = r1.Size
    · rw [if_pos hc]
      obtain ⟨_, hpath⟩ := lookupByPath_eq_some _ _ _ hl
      exact ⟨hpath, hc.1.symm, hc.2.symm⟩
    · rw [if_neg hc]
      exact updateStepById_fields e _

theorem updateStepById_WF (e : ScanEntry) (o2 : Option FileInfo)
    (he : e.WF) (ho : ∀ r, o2 = some r → r.WF) :
    ((updateStepById e o2).1).WF := by
  obtain ⟨e1, e2, e3, e4, e5, e6, e7⟩ := he
  cases o2 with
  | none => exact ⟨e1, e2, e3, e4, e5, e6, e7⟩
  | some r2 =>
    obtain ⟨r1, r2b, r3, r4, r5, _, r7⟩ := ho r2 rfl
    rw [updateStepById_some]
    by_cases hc : e.mtime = r2.ModifiedTime ∧ e.size = r2.Size
    · rw [if_pos hc]
      exact ⟨r1, r2b, r3, r4, r5, e6, r7⟩
    · rw [if_neg hc]
      exact ⟨e1, e2, e3, e4, e5, e6, e7⟩

theorem updateStep_WF (old : List FileInfo) (e : ScanEntry)
    (hwf : ∀ r ∈ old, r.WF) (he : e.WF) :
    ((updateStep old e).1).WF := by
  cases hl : lookupByPath old e.path with
  | none =>
    rw [updateStep_eq_none old e hl]
    exact updateStepById_WF e _ he
      (fun r hr => hwf r (lookupByFileID_eq_some _ _ _ hr).1)
  | some r1 =>
    rw [updateStep_eq_some old e r1 hl]
    by_cases hc : e.mtime = r1.ModifiedTime ∧ e.size = r1.Size
    · rw [if_pos hc]
      exact hwf r1 (lookupByPath_eq_some _ _ _ hl).1
    · rw [if_neg hc]
      exact updateStepById_WF e _ he
        (fun r hr => hwf r (lookupByFileID_eq_some _ _ _ hr).1)

theorem update_fst (old : List FileInfo) (scan : List ScanEntry) :
    (update old scan).1 = scan.map (fun e => (updateStep old e).1) := rfl

theorem update_fst_paths (old : List FileInfo) (scan : List ScanEntry) :
    ((update old scan).1).map FileInfo.Path = scan.map ScanEntry.path := by
  rw [update_fst, List.map_map]
  exact List.map_congr_left (fun e _ => (updateStep_fields old e).1)

theorem update_fst_WF (old : List FileInfo) (scan : List ScanEntry)
    (hwf : ∀ r ∈ old, r.WF) (hscan : ∀ e ∈ scan, e.WF) :
    ∀ r ∈ (update old scan).1, r.WF := by
  intro r hr
  rw [update_fst, List.mem_map] at hr
  obtain ⟨e, he, rfl⟩ := hr
  exact updateStep_WF old e hwf (hscan e he)

theorem update_second_run (old : List FileInfo) (scan : List ScanEntry)
    (hnd : (scan.map ScanEntry.path).Nodup)
    (m1 : List FileInfo) (hperm : List.Perm m1 (update old scan).1) :
    update m1 scan = ((update old scan).1, []) := by
  have hpaths := update_fst_paths old scan
  have hs1nd : (((update old scan).1).map FileInfo.Path).Nodup := by
    rw [hpaths]
    exact hnd
  have hm1nd : (m1.map FileInfo.Path).Nodup :=
    ((hperm.map FileInfo.Path).symm).nodup hs1nd
  have hkey : ∀ e ∈ scan, updateStep m1 e = ((updateStep old e).1, false) := by
    intro e he
    have hrmem : (updateStep old e).1 ∈ (update old scan).1 := by
      rw [update_fst]
      exact List.mem_map_of_mem _ he
    have hrm1 : (updateStep old e).1 ∈ m1 := hperm.mem_iff.2 hrmem
    obtain ⟨hP, hM, hS⟩ := updateStep_fields old e
    have hlook : lookupByPath m1 e.path = some (updateStep old e).1 :=
      lookupByPath_of_mem m1 e.path _ hm1nd hrm1 hP
    rw [updateStep_eq_some m1 e _ hlook, if_pos ⟨hM.symm, hS.symm⟩]
  unfold update
  refine Prod.ext ?_ ?_
  · show scan.map (fun e => (updateStep m1 e).1) = (update old scan).1
    rw [update_fst]
    exact List.map_congr_left (fun e he => by rw [hkey e he])
  · show ((scan.filter (fun e => (updateStep m1 e).2)).map ScanEntry.path) = []
    rw [show scan.filter (fun e => (updateStep m1 e).2) = [] from
      List.filter_eq_nil_iff.2 (fun e he => by rw [hkey e he]; simp)]
    rfl

theorem writeManifest_eq_of_nodup (l : List FileInfo)
    (hnd : (l.map FileInfo.Path).Nodup) :
    writeManifest l = some (String.mk
      (encodeRows (manifestHeader :: (sortByPath l).map recordFields))) := by
  unfold writeManifest writeManifestRecords
  rw [if_pos hnd]
  rfl

theorem readManifest_writeManifest (l : List FileInfo)
    (hnd : (l.map FileInfo.Path).Nodup) (hwf : ∀ r ∈ l, r.WF) (s : String)
    (hs : writeManifest l = some s) :
    readManifest s = some (sortByPath l) := by
  rw [writeManifest_eq_of_nodup l hnd] at hs
  have hwf2 : ∀ r ∈ sortByPath l, r.WF :=
    fun r hr => hwf r ((sortByPath_perm l).mem_iff.1 hr)
  have hread := readManifest_encodeRows (sortByPath l) hwf2
  rw [← Option.some_inj.1 hs]
  exact hread

end Core

/-! ## Lemmas: the compare engine of `update.go` -/

namespace Main

instance : IsTotal (String × DiffKind) (fun a b => a.1 ≤ b.1) :=
  ⟨fun a b => le_total a.1 b.1⟩

instance : IsTrans (String × DiffKind) (fun a b => a.1 ≤ b.1) :=
  ⟨fun _ _ _ h1 h2 => le_trans h1 h2⟩

theorem runCompare_eq (strict : Bool) (s1 s2 : List FileInfo) :
    runCompare strict s1 s2 =
      ((fileInfoSliceToMap s1).filterMap
          (classifyFirst strict (fileInfoSliceToMap s2)) ++
        (fileInfoSliceToMap s2).filterMap
          (classifySecond (fileInfoSliceToMap s1))).insertionSort
        (fun a b => a.1 ≤ b.1) := rfl

theorem keys_insertByPath (m : List (String × FileInfo)) (fi : FileInfo) :
    (insertByPath m fi).map Prod.fst =
      if m.any (fun q => q.1 == fi.Path) then m.map Prod.fst
      else m.map Prod.fst ++ [fi.Path] := by
  unfold insertByPath
  by_cases h : m.any (fun q => q.1 == fi.Path)
  · rw [if_pos h, if_pos h, List.map_map]
    apply List.map_congr_left
    intro q _
    simp only [Function.comp_apply]
    by_cases hqp : (q.1 == fi.Path) = true
    · rw [if_pos hqp]
      exact (eq_of_beq hqp).symm
    · rw [if_neg hqp]
  · rw [if_neg h, if_neg h, List.map_append]
    rfl

theorem not_mem_keys_of_not_any (m : List (String × FileInfo)) (fi : FileInfo)
    (h : ¬m.any (fun q => q.1 == fi.Path) = true) :
    fi.Path ∉ m.map Prod.fst := by
  intro hmem
  rw [List.mem_map] at hmem
  obtain ⟨q, hq, hfst⟩ := hmem
  exact h (List.any_eq_true.2 ⟨q, hq, by simp [hfst]⟩)

theorem mem_keys_insertByPath (m : List (String × FileInfo)) (fi : FileInfo)
    (p : String) :
    p ∈ (insertByPath m fi).map Prod.fst ↔
      p ∈ m.map Prod.fst ∨ p = fi.Path := by
  rw [keys_insertByPath]
  by_cases h : m.any (fun q => q.1 == fi.Path)
  · rw [if_pos h]
    obtain ⟨q, hq, hbeq⟩ := List.any_eq_true.1 h
    have hmem : fi.Path ∈ m.map Prod.fst :=
      List.mem_map.2 ⟨q, hq, eq_of_beq hbeq⟩
    constructor
    · exact Or.inl
    · rintro (h1 | rfl)
      · exact h1
      · exact hmem
  · rw [if_neg h, List.mem_append, List.mem_singleton]

theorem nodup_keys_insertByPath (m : List (String × FileInfo)) (fi : FileInfo)
    (h : (m.map Prod.fst).Nodup) :
    ((insertByPath m fi).map Prod.fst).Nodup := by
  rw [keys_insertByPath]
  by_cases hany : m.any (fun q => q.1 == fi.Path)
  · rw [if_pos hany]
    exact h
  · rw [if_neg hany]
    refine h.append (by simp) ?_
    intro a ha hb
    rw [List.mem_singleton] at hb
    subst hb
    exact not_mem_keys_of_not_any m fi hany ha

theorem nodup_keys_foldl (l : List FileInfo) :
    ∀ m : List (String × FileInfo), (m.map Prod.fst).Nodup →
      ((l.foldl insertByPath m).map Prod.fst).Nodup := by
  induction l with
  | nil => intro m h; exact h
  | cons fi rest ih =>
    intro m h
    exact ih (insertByPath m fi) (nodup_keys_insertByPath m fi h)

theorem mem_keys_foldl (l : List FileInfo) :
    ∀ (m : List (String × FileInfo)) (p : String),
      p ∈ (l.foldl insertByPath m).map Prod.fst ↔
        p ∈ m.map Prod.fst ∨ p ∈ l.map FileInfo.Path := by
  induction l with
  | nil => intro m p; simp
  | cons fi rest ih =>
    intro m p
    rw [List.foldl_cons, ih (insertByPath m fi) p, mem_keys_insertByPath,
      List.map_cons, List.mem_cons]
    tauto

theorem nodup_keys_sliceToMap (l : List FileInfo) :
    ((fileInfoSliceToMap l).map Prod.fst).Nodup :=
  nodup_keys_foldl l [] (by simp)

theorem mem_keys_sliceToMap (l : List FileInfo) (p : String) :
    p ∈ (fileInfoSliceToMap l).map Prod.fst ↔ p ∈ l.map FileInfo.Path := by
  unfold fileInfoSliceToMap
  rw [mem_keys_foldl]
  simp

theorem lookupMap_eq_none (m : List (String × FileInfo)) (p : String) :
    lookupMap m p = none ↔ p ∉ m.map Prod.fst := by
  unfold lookupMap
  rw [Option.map_eq_none', List.find?_eq_none]
  constructor
  · intro h hmem
    rw [List.mem_map] at hmem
    obtain ⟨q, hq, rfl⟩ := hmem
    exact h q hq (by simp)
  · intro h q hq hbeq
    exact h (List.mem_map.2 ⟨q, hq, eq_of_beq hbeq⟩)

theorem classifyFirst_eq_none (strict : Bool) (m2 : List (String × FileInfo))
    (pr : String × FileInfo) (h : lookupMap m2 pr.1 = none) :
    classifyFirst strict m2 pr = some (pr.1, DiffKind.removed) := by
  unfold classifyFirst
  rw [h]

theorem classifyFirst_eq_some (strict : Bool) (m2 : List (String × FileInfo))
    (pr : String × FileInfo) (fi2 : FileInfo)
    (h : lookupMap m2 pr.1 = some fi2) :
    classifyFirst strict m2 pr =
      (if ¬pr.2.ModifiedTime = fi2.ModifiedTime ∨ ¬pr.2.Size = fi2.Size ∨
          ¬(¬strict = true ∨ pr.2.Hash = fi2.Hash) then
        (if ¬pr.2.Size = fi2.Size then some (pr.1, DiffKind.modified) else none)
      else none) := by
  unfold classifyFirst
  rw [h]

theorem classifyFirst_spec (strict : Bool) (m2 : List (String × FileInfo))
    (pr : String × FileInfo) (y : String × DiffKind)
    (h : classifyFirst strict m2 pr = some y) :
    y.1 = pr.1 ∧ y.2 ≠ DiffKind.added ∧
      (y.2 = DiffKind.removed → lookupMap m2 pr.1 = none) := by
  cases hl : lookupMap m2 pr.1 with
  | none =>
    rw [classifyFirst_eq_none strict m2 pr hl] at h
    rw [← Option.some_inj.1 h]
    exact ⟨rfl, by simp, fun _ => rfl⟩
  | some fi2 =>
    rw [classifyFirst_eq_some strict m2 pr fi2 hl] at h
    split_ifs at h
    rw [← Option.some_inj.1 h]
    exact ⟨rfl, by simp, by simp⟩

theorem classifySecond_spec (m1 : List (String × FileInfo))
    (pr : String × FileInfo) (y : String × DiffKind)
    (h : classifySecond m1 pr = some y) :
    y = (pr.1, DiffKind.added) ∧ lookupMap m1 pr.1 = none := by
  cases hl : lookupMap m1 pr.1 with
  | none =>
    have heq : classifySecond m1 pr = some (pr.1, DiffKind.added) := by
      unfold classifySecond
      rw [hl]
    rw [heq] at h
    exact ⟨(Option.some_inj.1 h).symm, rfl⟩
  | some fi =>
    have heq : classifySecond m1 pr = none := by
      unfold classifySecond
      rw [hl]
    rw [heq] at h
    cases h

theorem classifySecond_eq_none_lookup (m1 : List (String × FileInfo))
    (pr : String × FileInfo) (h : lookupMap m1 pr.1 = none) :
    classifySecond m1 pr = some (pr.1, DiffKind.added) := by
  unfold classifySecond
  rw [h]

theorem filterMap_fst_sublist (g : (String × FileInfo) → Option (String × DiffKind))
    (hg : ∀ pr y, g pr = some y → y.1 = pr.1) (m : List (String × FileInfo)) :
    List.Sublist ((m.filterMap g).map Prod.fst) (m.map Prod.fst) := by
  induction m with
  | nil => simp
  | cons pr rest ih =>
    cases hg1 : g pr with
    | none =>
      rw [List.filterMap_cons_none hg1, List.map_cons]
      exact ih.cons pr.1
    | some y =>
      rw [List.filterMap_cons_some hg1, List.map_cons, List.map_cons,
        hg pr y hg1]
      exact ih.cons₂ pr.1

end Main

/-! ## The claims -/

/-- C1: the claim states that `compare` reports a path present in both
inputs as Modified exactly when the mtimes differ, the sizes differ, or (in
strict mode) the hashes differ.  The code (`runCompare` in `update.go`)
contradicts this: the Modified output is appended only inside the
`!sizeEqual` branch, so an mtime-only difference (either mode) and a
hash-only difference (strict mode) produce no output at all, while a size
difference alone does produce one.  The README documents strict mode as
detecting corruption (equal metadata, different content), so the spec is
the intent and the mis-scoped append is a code bug.  This theorem
evaluates the embedded `runCompare` at the failing inputs. -/
theorem c1_compare_modified_only_on_size_change :
    Main.runCompare true [⟨"a.txt", 0, 1, "aa"⟩] [⟨"a.txt", 0, 1, "bb"⟩] = [] ∧
    Main.runCompare false [⟨"a.txt", 0, 1, "h"⟩] [⟨"a.txt", 99, 1, "h"⟩] = [] ∧
    Main.runCompare true [⟨"a.txt", 0, 1, "h"⟩] [⟨"a.txt", 0, 2, "h"⟩] =
      [("a.txt", Main.DiffKind.modified)] :=
  ⟨rfl, rfl, rfl⟩

/-- C2: a fresh scan entry whose path has no match in the old manifest but
whose stable id is mapped (by `oldManifestMapByFileID`) to an old record
with equal size and whole-second mtime is reconciled by reusing that
record with only `Path` overwritten, without reading file content
(`calculateMD5` is not invoked: the step marker is `false`), and that
record appears in the output manifest slice. -/
theorem c2_update_move_detection (old : List Core.FileInfo)
    (scan : List Core.ScanEntry) (e : Core.ScanEntry) (r : Core.FileInfo)
    (hpath : Core.lookupByPath old e.path = none)
    (hid : Core.lookupByFileID old e.fileID = some r)
    (hmtime : r.ModifiedTime = e.mtime) (hsize : r.Size = e.size)
    (hmem : e ∈ scan) :
    Core.updateStep old e = ({ r with Path := e.path }, false) ∧
    { r with Path := e.path } ∈ (Core.update old scan).1 := by
  have hstep : Core.updateStep old e = ({ r with Path := e.path }, false) := by
    rw [Core.updateStep_eq_none old e hpath, hid, Core.updateStepById_some,
      if_pos ⟨hmtime.symm, hsize.symm⟩]
  refine ⟨hstep, ?_⟩
  rw [Core.update_fst]
  exact List.mem_map.2 ⟨e, hmem, by rw [hstep]⟩

theorem c2_update_move_detection_witness :
    Core.updateStep [⟨"a.txt", 5, 3, "H", 7⟩] ⟨"b/a.txt", 5, 3, 7, "zz"⟩ =
      (⟨"b/a.txt", 5, 3, "H", 7⟩, false) ∧
    (⟨"b/a.txt", 5, 3, "H", 7⟩ : Core.FileInfo) ∈
      (Core.update [⟨"a.txt", 5, 3, "H", 7⟩] [⟨"b/a.txt", 5, 3, 7, "zz"⟩]).1 :=
  c2_update_move_detection [⟨"a.txt", 5, 3, "H", 7⟩] [⟨"b/a.txt", 5, 3, 7, "zz"⟩]
    ⟨"b/a.txt", 5, 3, 7, "zz"⟩ ⟨"a.txt", 5, 3, "H", 7⟩
    (by decide) (by decide) rfl rfl (by decide)

/-- C3: when a scanned file matches one old record by path (equal size and
whole-second mtime) and a different old record by stable id (also equal
size and mtime), reconciliation takes `condition1`: the path-matched
record is reused verbatim (no hash computed) and the stable-id match is
ignored. -/
theorem c3_update_path_match_priority (old : List Core.FileInfo)
    (e : Core.ScanEntry) (r1 r2 : Core.FileInfo)
    (h1 : Core.lookupByPath old e.path = some r1)
    (h1m : r1.ModifiedTime = e.mtime) (h1s : r1.Size = e.size)
    (h2 : Core.lookupByFileID old e.fileID = some r2)
    (h2m : r2.ModifiedTime = e.mtime) (h2s : r2.Size = e.size)
    (hne : r2 ≠ r1) :
    Core.updateStep old e = (r1, false) := by
  rw [Core.updateStep_eq_some old e r1 h1, if_pos ⟨h1m.symm, h1s.symm⟩]

theorem c3_update_path_match_priority_witness :
    Core.updateStep [⟨"a", 5, 3, "H1", 7⟩, ⟨"b", 5, 3, "H2", 9⟩]
      ⟨"a", 5, 3, 9, "zz"⟩ = (⟨"a", 5, 3, "H1", 7⟩, false) :=
  c3_update_path_match_priority [⟨"a", 5, 3, "H1", 7⟩, ⟨"b", 5, 3, "H2", 9⟩]
    ⟨"a", 5, 3, 9, "zz"⟩ ⟨"a", 5, 3, "H1", 7⟩ ⟨"b", 5, 3, "H2", 9⟩
    (by decide) rfl rfl (by decide) rfl rfl (by decide)

/-- C4: reconciliation is idempotent.  Writing the first run's output
succeeds and reads back as the path-sorted record list; a second run that
takes this read-back manifest as its old manifest reuses every record
verbatim (`condition1` fires for every file), computes zero content hashes
(its `calculateMD5` list is empty), and serializes to the same bytes.  The
hypotheses state the well-formedness a real run guarantees: walk-produced
relative paths are distinct, and all fields fit their Go types and are free
of carriage returns (Windows paths and hex digests always are). -/
theorem c4_update_idempotent (old : List Core.FileInfo)
    (scan : List Core.ScanEntry)
    (hnd : (scan.map Core.ScanEntry.path).Nodup)
    (hold : ∀ r ∈ old, r.WF) (hscan : ∀ e ∈ scan, e.WF) :
    (Core.writeManifest (Core.update old scan).1).bind Core.readManifest =
      some (Core.sortByPath (Core.update old scan).1) ∧
    Core.update (Core.sortByPath (Core.update old scan).1) scan =
      ((Core.update old scan).1, []) ∧
    Core.writeManifest
        (Core.update (Core.sortByPath (Core.update old scan).1) scan).1 =
      Core.writeManifest (Core.update old scan).1 := by
  have hs1nd : (((Core.update old scan).1).map Core.FileInfo.Path).Nodup := by
    rw [Core.update_fst_paths]
    exact hnd
  have hs1wf := Core.update_fst_WF old scan hold hscan
  have hw := Core.writeManifest_eq_of_nodup _ hs1nd
  refine ⟨?_, ?_, ?_⟩
  · rw [hw]
    exact Core.readManifest_writeManifest _ hs1nd hs1wf _ hw
  · exact Core.update_second_run old scan hnd _ (Core.sortByPath_perm _)
  · rw [Core.update_second_run old scan hnd _ (Core.sortByPath_perm _)]

theorem c4_update_idempotent_witness :
    (Core.writeManifest (Core.update [] [⟨"a", 5, 3, 7, "aa"⟩]).1).bind
        Core.readManifest =
      some (Core.sortByPath (Core.update [] [⟨"a", 5, 3, 7, "aa"⟩]).1) ∧
    Core.update (Core.sortByPath (Core.update [] [⟨"a", 5, 3, 7, "aa"⟩]).1)
        [⟨"a", 5, 3, 7, "aa"⟩] =
      ((Core.update [] [⟨"a", 5, 3, 7, "aa"⟩]).1, []) ∧
    Core.writeManifest
        (Core.update (Core.sortByPath (Core.update [] [⟨"a", 5, 3, 7, "aa"⟩]).1)
          [⟨"a", 5, 3, 7, "aa"⟩]).1 =
      Core.writeManifest (Core.update [] [⟨"a", 5, 3, 7, "aa"⟩]).1 :=
  c4_update_idempotent [] [⟨"a", 5, 3, 7, "aa"⟩]
    (by decide) (by decide) (by decide)

/-- C5 counterexample: the claim quantifies over the repository's
`readManifest`/`writeManifest` pair and explicitly includes paths
containing the delimiter; it cites both the core csv codec (part 009) and
the legacy line-based codec (part 004).  For the legacy codec the round
trip fails already on a single record whose path contains a comma: the
writer quotes the field, but the reader splits the line blindly on commas
and then fails to parse `b"` as an integer, so reading back the written
bytes errors instead of returning the record. -/
theorem c5_legacy_roundtrip_comma_fails :
    Main.readManifest (Main.writeManifest
      [⟨"a,b", 0, 0, "d41d8cd98f00b204e9800998ecf8427e"⟩]) = none := rfl

/-- C5 (amended): for the core csv codec (`internal/core`), for every
record list with pairwise distinct paths whose fields are Go-representable
and free of carriage returns, reading back the written bytes succeeds and
yields exactly the same records (as the path-sorted arrangement, a
permutation of the originals), independent of insertion order — including
paths that contain the delimiter, a quote character or a newline. -/
theorem c5_roundtrip_core_codec (l lp : List Core.FileInfo)
    (hperm : List.Perm lp l)
    (hnd : (l.map Core.FileInfo.Path).Nodup)
    (hwf : ∀ r ∈ l, r.WF) :
    (Core.writeManifest lp).isSome = true ∧
    (Core.writeManifest lp).bind Core.readManifest =
      some (Core.sortByPath lp) ∧
    List.Perm (Core.sortByPath lp) l := by
  have hndp : (lp.map Core.FileInfo.Path).Nodup :=
    ((hperm.map Core.FileInfo.Path).symm).nodup hnd
  have hwfp : ∀ r ∈ lp, r.WF := fun r hr => hwf r (hperm.mem_iff.1 hr)
  have hw := Core.writeManifest_eq_of_nodup _ hndp
  refine ⟨by rw [hw]; rfl, ?_, ?_⟩
  · rw [hw]
    exact Core.readManifest_writeManifest _ hndp hwfp _ hw
  · exact (Core.sortByPath_perm lp).trans hperm

theorem c5_roundtrip_core_codec_witness :
    (Core.writeManifest [⟨"x", 4, 5, "g", 6⟩, ⟨"a,b\"c\nd", 1, 2, "h", 3⟩]).isSome
        = true ∧
    (Core.writeManifest [⟨"x", 4, 5, "g", 6⟩, ⟨"a,b\"c\nd", 1, 2, "h", 3⟩]).bind
        Core.readManifest =
      some (Core.sortByPath [⟨"x", 4, 5, "g", 6⟩, ⟨"a,b\"c\nd", 1, 2, "h", 3⟩]) ∧
    List.Perm
      (Core.sortByPath [⟨"x", 4, 5, "g", 6⟩, ⟨"a,b\"c\nd", 1, 2, "h", 3⟩])
      [⟨"a,b\"c\nd", 1, 2, "h", 3⟩, ⟨"x", 4, 5, "g", 6⟩] :=
  c5_roundtrip_core_codec [⟨"a,b\"c\nd", 1, 2, "h", 3⟩, ⟨"x", 4, 5, "g", 6⟩]
    [⟨"x", 4, 5, "g", 6⟩, ⟨"a,b\"c\nd", 1, 2, "h", 3⟩]
    (List.Perm.swap _ _ _) (by decide) (by decide)

/-- C6: diff completeness of `runCompare`: a path appears as Removed
exactly when it is a path of the first input and not of the second, as
Added exactly when it is a path of the second and not of the first, and
the output paths are pairwise distinct — so each such path appears exactly
once and no path falls into more than one category. -/
theorem c6_compare_diff_complete (strict : Bool)
    (s1 s2 : List Main.FileInfo) :
    (∀ p, (p, Main.DiffKind.removed) ∈ Main.runCompare strict s1 s2 ↔
      (p ∈ s1.map Main.FileInfo.Path ∧ p ∉ s2.map Main.FileInfo.Path)) ∧
    (∀ p, (p, Main.DiffKind.added) ∈ Main.runCompare strict s1 s2 ↔
      (p ∈ s2.map Main.FileInfo.Path ∧ p ∉ s1.map Main.FileInfo.Path)) ∧
    ((Main.runCompare strict s1 s2).map Prod.fst).Nodup := by
  have hsortperm : List.Perm (Main.runCompare strict s1 s2)
      ((Main.fileInfoSliceToMap s1).filterMap
          (Main.classifyFirst strict (Main.fileInfoSliceToMap s2)) ++
        (Main.fileInfoSliceToMap s2).filterMap
          (Main.classifySecond (Main.fileInfoSliceToMap s1))) := by
    rw [Main.runCompare_eq]
    exact List.perm_insertionSort _ _
  have hmem : ∀ y, y ∈ Main.runCompare strict s1 s2 ↔
      (y ∈ (Main.fileInfoSliceToMap s1).filterMap
          (Main.classifyFirst strict (Main.fileInfoSliceToMap s2)) ∨
        y ∈ (Main.fileInfoSliceToMap s2).filterMap
          (Main.classifySecond (Main.fileInfoSliceToMap s1))) := by
    intro y
    rw [hsortperm.mem_iff, List.mem_append]
  refine ⟨?_, ?_, ?_⟩
  · intro p
    rw [hmem]
    constructor
    · rintro (h | h)
      · rw [List.mem_filterMap] at h
        obtain ⟨pr, hpr, hcl⟩ := h
        obtain ⟨hfst, _, hrem⟩ := Main.classifyFirst_spec _ _ pr _ hcl
        have hp : p = pr.1 := hfst
        have hlook := hrem rfl
        rw [Main.lookupMap_eq_none] at hlook
        constructor
        · rw [← Main.mem_keys_sliceToMap, hp]
          exact List.mem_map.2 ⟨pr, hpr, rfl⟩
        · rw [← Main.mem_keys_sliceToMap, hp]
          exact hlook
      · rw [List.mem_filterMap] at h
        obtain ⟨pr, hpr, hcl⟩ := h
        obtain ⟨heq, _⟩ := Main.classifySecond_spec _ pr _ hcl
        simp at heq
    · rintro ⟨hin1, hnin2⟩
      left
      rw [← Main.mem_keys_sliceToMap] at hin1 hnin2
      rw [List.mem_map] at hin1
      obtain ⟨pr, hpr, rfl⟩ := hin1
      rw [List.mem_filterMap]
      exact ⟨pr, hpr, Main.classifyFirst_eq_none _ _ pr
        ((Main.lookupMap_eq_none _ _).2 hnin2)⟩
  · intro p
    rw [hmem]
    constructor
    · rintro (h | h)
      · rw [List.mem_filterMap] at h
        obtain ⟨pr, hpr, hcl⟩ := h
        obtain ⟨_, hadd, _⟩ := Main.classifyFirst_spec _ _ pr _ hcl
        exact absurd rfl hadd
      · rw [List.mem_filterMap] at h
        obtain ⟨pr, hpr, hcl⟩ := h
        obtain ⟨heq, hlook⟩ := Main.classifySecond_spec _ pr _ hcl
        have hp : p = pr.1 := by
          have := congrArg Prod.fst heq
          simpa using this
        rw [Main.lookupMap_eq_none] at hlook
        constructor
        · rw [← Main.mem_keys_sliceToMap, hp]
          exact List.mem_map.2 ⟨pr, hpr, rfl⟩
        · rw [← Main.mem_keys_sliceToMap, hp]
          exact hlook
    · rintro ⟨hin2, hnin1⟩
      right
      rw [← Main.mem_keys_sliceToMap] at hin2 hnin1
      rw [List.mem_map] at hin2
      obtain ⟨pr, hpr, rfl⟩ := hin2
      rw [List.mem_filterMap]
      exact ⟨pr, hpr, Main.classifySecond_eq_none_lookup _ pr
        ((Main.lookupMap_eq_none _ _).2 hnin1)⟩
  · have hfst1 : ∀ pr y,
        Main.classifyFirst strict (Main.fileInfoSliceToMap s2) pr = some y →
          y.1 = pr.1 :=
      fun pr y h => (Main.classifyFirst_spec _ _ pr y h).1
    have hfst2 : ∀ pr y,
        Main.classifySecond (Main.fileInfoSliceToMap s1) pr = some y →
          y.1 = pr.1 :=
      fun pr y h => by rw [(Main.classifySecond_spec _ pr y h).1]
    have hn1 := List.Nodup.sublist
      (Main.filterMap_fst_sublist _ hfst1 (Main.fileInfoSliceToMap s1))
      (Main.nodup_keys_sliceToMap s1)
    have hn2 := List.Nodup.sublist
      (Main.filterMap_fst_sublist _ hfst2 (Main.fileInfoSliceToMap s2))
      (Main.nodup_keys_sliceToMap s2)
    have hdisj : List.Disjoint
        (((Main.fileInfoSliceToMap s1).filterMap
          (Main.classifyFirst strict (Main.fileInfoSliceToMap s2))).map Prod.fst)
        (((Main.fileInfoSliceToMap s2).filterMap
          (Main.classifySecond (Main.fileInfoSliceToMap s1))).map Prod.fst) := by
      intro a ha1 ha2
      rw [List.mem_map] at ha1 ha2
      obtain ⟨y1, hy1, hy1a⟩ := ha1
      obtain ⟨y2, hy2, hy2a⟩ := ha2
      rw [List.mem_filterMap] at hy1 hy2
      obtain ⟨pr1, hpr1, hcl1⟩ := hy1
      obtain ⟨pr2, hpr2, hcl2⟩ := hy2
      have ha1m : a ∈ (Main.fileInfoSliceToMap s1).map Prod.fst := by
        rw [← hy1a, (Main.classifyFirst_spec _ _ pr1 y1 hcl1).1]
        exact List.mem_map.2 ⟨pr1, hpr1, rfl⟩
      obtain ⟨heq2, hlook2⟩ := Main.classifySecond_spec _ pr2 y2 hcl2
      rw [Main.lookupMap_eq_none] at hlook2
      have ha2e : a = pr2.1 := by
        rw [← hy2a, heq2]
      rw [ha2e] at ha1m
      exact hlook2 ha1m
    have happ : (((Main.fileInfoSliceToMap s1).filterMap
          (Main.classifyFirst strict (Main.fileInfoSliceToMap s2)) ++
        (Main.fileInfoSliceToMap s2).filterMap
          (Main.classifySecond (Main.fileInfoSliceToMap s1))).map Prod.fst).Nodup := by
      rw [List.map_append]
      exact hn1.append hn2 hdisj
    exact ((hsortperm.map Prod.fst).symm).nodup happ

/-- C7: the on-disk serialization path shared by the create and update
commands (`writeManifest` of `internal/core`, which both call after
collecting records in arbitrary walk/worker order) emits records in
strictly ascending path order whenever it succeeds: the duplicate check
makes the paths distinct and the sort makes them ascending. -/
theorem c7_writeManifest_sorted (l out : List Core.FileInfo)
    (h : Core.writeManifestRecords l = some out) :
    out.Pairwise (fun a b => lexLt a.Path.data b.Path.data = true) := by
  unfold Core.writeManifestRecords at h
  by_cases hnd : (l.map Core.FileInfo.Path).Nodup
  · rw [if_pos hnd] at h
    rw [← Option.some_inj.1 h]
    exact Core.sortByPath_strict l hnd
  · rw [if_neg hnd] at h
    cases h

theorem c7_writeManifest_sorted_witness :
    ([⟨"a", 0, 0, "h", 1⟩, ⟨"b", 0, 0, "g", 2⟩] : List Core.FileInfo).Pairwise
      (fun a b => lexLt a.Path.data b.Path.data = true) :=
  c7_writeManifest_sorted [⟨"b", 0, 0, "g", 2⟩, ⟨"a", 0, 0, "h", 1⟩]
    [⟨"a", 0, 0, "h", 1⟩, ⟨"b", 0, 0, "g", 2⟩] (by decide)

/-- C8 counterexample: the claim says a parse failure of the old manifest
aborts the update before any file is created or modified.  In the code
(`update`, part 008, and `runUpdate`, `update.go`) `createFile` on the new
manifest path runs before `readManifest` on the old one, so with a
malformed old manifest ("bad": its header has one field, not five) the
destination file has already been created (empty) when the command
aborts. -/
theorem c8_update_parse_error_creates_file :
    Core.readManifest "bad" = none ∧
    (Core.updateCommand true false "bad" []).manifestFileCreated = true ∧
    (Core.updateCommand true false "bad" []).manifestWritten = none :=
  ⟨rfl, rfl, rfl⟩

/-- C8 (amended): when reading or parsing the old manifest fails, the
update command aborts before writing any manifest content — `writeManifest`
is never reached, so nothing is written into the destination — but the
destination file itself has already been created (empty) by `createFile`,
which runs before the old manifest is read. -/
theorem c8_update_parse_error_no_write (ntfs destExists : Bool)
    (oldBytes : String) (scan : List Core.ScanEntry)
    (h : Core.readManifest oldBytes = none) :
    (Core.updateCommand ntfs destExists oldBytes scan).manifestWritten =
      none := by
  unfold Core.updateCommand
  by_cases hn : ntfs = false
  · rw [if_pos hn]
  · rw [if_neg hn]
    by_cases hd : destExists = true
    · rw [if_pos hd]
    · rw [if_neg hd, h]

theorem c8_update_parse_error_no_write_witness :
    (Core.updateCommand true false "bad" []).manifestWritten = none :=
  c8_update_parse_error_no_write true false "bad" [] rfl

/-- C9: neither generation of the tool ever silently overwrites an
existing destination manifest.  `createFile` fails whenever the
destination exists, so the core `create` and `update` commands abort
before creating or writing anything; the legacy `runCreate` additionally
prompts, and even a confirmed overwrite then fails inside `createFile` —
in every case an existing destination makes the operation fail with an
error and nothing is written. -/
theorem c9_no_silent_overwrite (ntfs : Bool) (oldBytes : String)
    (scan : List Core.ScanEntry) (confirmed destExists : Bool)
    (h : destExists = true) :
    (Core.createCommand ntfs destExists scan).manifestFileCreated = false ∧
    (Core.createCommand ntfs destExists scan).manifestWritten = none ∧
    (Core.updateCommand ntfs destExists oldBytes scan).manifestFileCreated
        = false ∧
    (Core.updateCommand ntfs destExists oldBytes scan).manifestWritten
        = none ∧
    (Main.runCreate destExists confirmed scan).manifestFileCreated = false ∧
    (Main.runCreate destExists confirmed scan).manifestWritten = none := by
  subst h
  cases ntfs <;> cases confirmed <;> exact ⟨rfl, rfl, rfl, rfl, rfl, rfl⟩

theorem c9_no_silent_overwrite_witness :
    (Core.createCommand true true []).manifestFileCreated = false ∧
    (Core.createCommand true true []).manifestWritten = none ∧
    (Core.updateCommand true true "x" []).manifestFileCreated = false ∧
    (Core.updateCommand true true "x" []).manifestWritten = none ∧
    (Main.runCreate true true []).manifestFileCreated = false ∧
    (Main.runCreate true true []).manifestWritten = none :=
  c9_no_silent_overwrite true "x" [] true true rfl

/-- C10: the core codec's `writeManifest` runs its duplicate-path check
before emitting anything: a record list with two equal paths yields an
error and no output at all, and consequently any record list it does emit
has pairwise distinct paths. -/
theorem c10_writeManifest_duplicate_paths (l : List Core.FileInfo) :
    (¬(l.map Core.FileInfo.Path).Nodup → Core.writeManifest l = none) ∧
    (∀ out, Core.writeManifestRecords l = some out →
      (out.map Core.FileInfo.Path).Nodup) := by
  constructor
  · intro h
    unfold Core.writeManifest Core.writeManifestRecords
    rw [if_neg h]
    rfl
  · intro out hout
    unfold Core.writeManifestRecords at hout
    by_cases hnd : (l.map Core.FileInfo.Path).Nodup
    · rw [if_pos hnd] at hout
      rw [← Option.some_inj.1 hout]
      exact (((Core.sortByPath_perm l).map Core.FileInfo.Path).symm).nodup hnd
    · rw [if_neg hnd] at hout
      cases hout

theorem c10_writeManifest_duplicate_paths_witness :
    Core.writeManifest [⟨"a", 0, 0, "h", 1⟩, ⟨"a", 1, 2, "g", 3⟩] = none ∧
    (([⟨"a", 0, 0, "h", 1⟩] : List Core.FileInfo).map
      Core.FileInfo.Path).Nodup :=
  ⟨(c10_writeManifest_duplicate_paths [⟨"a", 0, 0, "h", 1⟩, ⟨"a", 1, 2, "g", 3⟩]).1
      (by decide),
    (c10_writeManifest_duplicate_paths [⟨"a", 0, 0, "h", 1⟩]).2
      [⟨"a", 0, 0, "h", 1⟩] (by decide)⟩

end Ssync

